import Mathlib

/-!
Verification of the MechWolf protocol-compiler and execution-engine
specification against a shallow embedding of the system.

The repository's shipped text is the component-authoring guide
(`src/unnamed/part_000`), which documents the data model (ActiveComponent
attributes, the `_base_state` mapping, `update` drivers, `__enter__` /
`__exit__` resource hooks) and describes `Protocol.compile` and the run-time
engine.  The compiler and executor bodies themselves are not part of the
shipped sources, so they are modelled here from the specification
(spec sections 3, 4.2 and 4.3), faithfully to its words; the
PhilosophersStone component is embedded from the guide's own code.
-/

namespace MechWolf

/-- An active component of the apparatus: a name, the declared controllable
attribute names, and the base (idle) state as an attribute-to-value mapping,
as documented in the guide ("The base state method must be called
`_base_state` and be a dict with attributes as keys and settings for those
attributes as values"). Values are kept as their quantity strings; the
unit-parsing subsystem is opaque per the spec. -/
structure ActiveComponent where
  name : String
  attrs : List String
  base : List (String × String)
deriving DecidableEq

/-- Modelled from the spec: a raw timed procedure submitted by the user -
"a tuple (component reference, start time, end time, mapping of
attribute→target value)" (spec section 3). Times are in whole seconds. -/
structure RawProcedure where
  component : String
  start : Nat
  stop : Nat
  values : List (String × String)
deriving DecidableEq

/-- An entry of a compiled per-component timeline: a half-open time span
with the attribute mapping to apply at its start. -/
structure CompiledProcedure where
  start : Nat
  stop : Nat
  values : List (String × String)
deriving DecidableEq

/-- Modelled from the spec: the compile-time error taxonomy of spec
section 7 that the claims exercise (`ProcedureConflictError` naming the two
conflicting procedures, `InvalidAttributeError`). -/
inductive CompileError where
  | procedureConflict (p q : RawProcedure)
  | invalidAttribute (component attr : String)
deriving DecidableEq

/-- Two time ranges overlap (equal or intersecting half-open spans). -/
def overlapB (p q : RawProcedure) : Bool :=
  decide (p.start < q.stop) && decide (q.start < p.stop)

/-- The two procedures' attribute mappings share at least one attribute
name. -/
def sharesAttrB (p q : RawProcedure) : Bool :=
  p.values.any (fun kv => q.values.any (fun kv2 => kv.1 == kv2.1))

/-- Modelled from the spec: two raw procedures conflict when their time
ranges are "equal or intersecting" and their attribute sets overlap
(spec section 4.2 step 2). -/
def conflicts (p q : RawProcedure) : Bool :=
  overlapB p q && sharesAttrB p q

/-- First conflicting pair found in a group of raw procedures, if any. -/
def findConflict : List RawProcedure → Option (RawProcedure × RawProcedure)
  | [] => none
  | p :: ps =>
    match ps.find? (fun q => conflicts p q) with
    | some q => some (p, q)
    | none => findConflict ps

/-- The raw procedures targeting a given component (spec section 4.2
step 1: "Group raw procedures by target ActiveComponent"). -/
def procsFor (name : String) (raw : List RawProcedure) : List RawProcedure :=
  raw.filter (fun p => p.component == name)

/-- Ordering of raw procedures by start time (spec section 4.2 step 2:
"Within each group, sort by start time"). -/
def byStart (p q : RawProcedure) : Prop :=
  p.start ≤ q.start

instance : DecidableRel byStart :=
  fun p q => inferInstanceAs (Decidable (p.start ≤ q.start))

instance : IsTotal RawProcedure byStart :=
  ⟨fun p q => Nat.le_total p.start q.start⟩

instance : IsTrans RawProcedure byStart :=
  ⟨fun _ _ _ h1 h2 => Nat.le_trans h1 h2⟩

/-- First attribute name appearing in a group of procedures that is not a
declared attribute of the component (spec section 4.2 step 3). -/
def invalidAttrOf (c : ActiveComponent) (ps : List RawProcedure) : Option String :=
  ps.findSome? (fun p =>
    p.values.findSome? (fun kv =>
      if c.attrs.any (fun a => a == kv.1) then none else some kv.1))

/-- Modelled from the spec: gap filling (spec section 4.2 step 4): walk the
sorted group keeping the time `t` covered so far, "insert a base-state
procedure for any interval not covered by a user procedure, including before
the first and after the last explicit procedure, and a final base-state
procedure appended at `duration` if the last user procedure ends before
`duration`". -/
def fillGaps (base : List (String × String)) (duration : Nat) :
    Nat → List RawProcedure → List CompiledProcedure
  | t, [] => if t < duration then [⟨t, duration, base⟩] else []
  | t, p :: ps =>
    if t < p.start then
      ⟨t, p.start, base⟩ :: ⟨p.start, p.stop, p.values⟩ ::
        fillGaps base duration (max t p.stop) ps
    else
      ⟨p.start, p.stop, p.values⟩ :: fillGaps base duration (max t p.stop) ps

/-- Compilation of one component's already-sorted group: reject conflicts,
validate attribute names, fill gaps with base-state procedures
(spec section 4.2 steps 2-4). -/
def compileGroup (c : ActiveComponent) (duration : Nat)
    (ps : List RawProcedure) : Except CompileError (List CompiledProcedure) :=
  match findConflict ps with
  | some pr => .error (.procedureConflict pr.1 pr.2)
  | none =>
    match invalidAttrOf c ps with
    | some a => .error (.invalidAttribute c.name a)
    | none => .ok (fillGaps c.base duration 0 ps)

/-- Modelled from the spec: compilation of one component's group of raw
procedures (spec section 4.2 steps 2-4): sort by start time, reject
conflicts, validate attribute names, fill gaps with base-state procedures. -/
def compileComponent (c : ActiveComponent) (raw : List RawProcedure)
    (duration : Nat) : Except CompileError (List CompiledProcedure) :=
  compileGroup c duration (List.insertionSort byStart (procsFor c.name raw))

/-- Modelled from the spec: `Protocol.compile` - the missing compiler body
documented at `src/unnamed/part_000` lines 33-36 and specified in spec
section 4.2: per ActiveComponent of the apparatus, produce the sorted,
conflict-checked, gap-filled timeline; failure is always reported at compile
time. -/
def compile (apparatus : List ActiveComponent) (raw : List RawProcedure)
    (duration : Nat) :
    Except CompileError (List (String × List CompiledProcedure)) :=
  match apparatus with
  | [] => .ok []
  | c :: cs =>
    match compileComponent c raw duration with
    | .error e => .error e
    | .ok tl =>
      match compile cs raw duration with
      | .error e => .error e
      | .ok rest => .ok ((c.name, tl) :: rest)

/-- Adjacency of a timeline from a given instant: each entry starts exactly
where the previous one stopped, the first at the given instant. -/
def chainedFrom (t : Nat) : List CompiledProcedure → Bool
  | [] => true
  | p :: ps => (t == p.start) && chainedFrom p.stop ps

/-- The stop time of the last entry of a timeline, or the given default for
an empty timeline. -/
def lastStopD (d : Nat) : List CompiledProcedure → Nat
  | [] => d
  | p :: ps => lastStopD p.stop ps

/-- A timeline partitions the interval from 0 to `duration`: it is
non-empty, its entries are consecutive half-open spans starting at 0 and
ending at `duration`, and every span is non-degenerate.  Consecutiveness
gives total ordering, pairwise non-overlap and absence of gaps at once. -/
def isPartition (duration : Nat) (tl : List CompiledProcedure) : Bool :=
  !tl.isEmpty && chainedFrom 0 tl && (lastStopD 0 tl == duration) &&
    tl.all (fun q => decide (q.start < q.stop))

/-- Separation of two raw procedures: the first ends no later than the
second starts. -/
def separated (p q : RawProcedure) : Prop :=
  p.stop ≤ q.start

/-- Two raw procedures are time-disjoint when, if they target the same
component, one ends no later than the other starts. -/
def timeDisjoint (p q : RawProcedure) : Prop :=
  p.component = q.component → p.stop ≤ q.start ∨ q.stop ≤ p.start

instance : DecidableRel timeDisjoint :=
  fun p q => inferInstanceAs
    (Decidable (p.component = q.component → p.stop ≤ q.start ∨ q.stop ≤ p.start))

end MechWolf

namespace MechWolf

-- Concrete inputs used by the examples of the specification.

/-- The pump of the spec's worked example: attribute `rate`, base state
`rate = 0 mL/min`. -/
def pump1 : ActiveComponent :=
  ⟨"pump1", ["rate"], [("rate", "0 mL/min")]⟩

/-- The spec's worked raw procedure: `rate=5 mL/min` from t=10s to t=20s. -/
def pump1Raw : RawProcedure :=
  ⟨"pump1", 10, 20, [("rate", "5 mL/min")]⟩

/-- A second raw procedure on pump1's `rate` attribute whose time range
overlaps the first, used to exercise conflict detection. -/
def pump1RawB : RawProcedure :=
  ⟨"pump1", 15, 25, [("rate", "7 mL/min")]⟩

/-- The valve of the spec's overlap example, with the two independent
attributes `position` and `flush`. -/
def valve1 : ActiveComponent :=
  ⟨"valve1", ["position", "flush"], [("position", "A"), ("flush", "off")]⟩

/-- The spec's overlap example, first procedure: `position` over t=0-10. -/
def valve1Pos : RawProcedure :=
  ⟨"valve1", 0, 10, [("position", "B")]⟩

/-- The spec's overlap example, second procedure: `flush` over t=5-15. -/
def valve1Flush : RawProcedure :=
  ⟨"valve1", 5, 15, [("flush", "on")]⟩

-- The run-time engine, modelled from spec sections 4.3 and 5: the executor
-- drives each ActiveComponent's compiled timeline independently, so one
-- component's run is embedded as the sequence of events its task performs.

/-- An event of one component's run: resource acquisition, application of a
timeline procedure, terminal base-state restoration, resource release. -/
inductive RunEvent where
  | acquire
  | apply (p : CompiledProcedure)
  | restore
  | release
deriving DecidableEq

/-- Cancellation at the given time, when requested, is observed while
waiting for a procedure's start: the wait for a procedure starting after
the cancellation instant sees the request (spec section 5: "a run-wide
cancellation token is observed at every suspension point"). -/
def cancelledAt (cancelAt : Option Nat) (p : CompiledProcedure) : Bool :=
  match cancelAt with
  | none => false
  | some T => decide (T < p.start)

/-- Modelled from the spec: the event trace of one component's `Running`
phase followed by its terminal phase (spec section 4.3 steps 2-4): walk the
timeline in order; before each procedure, the wait for its start observes
cancellation; a driver failure on a procedure aborts the walk; in every
case the trace ends with base-state restoration and release. -/
def runFrom (fails : CompiledProcedure → Bool) (cancelAt : Option Nat) :
    List CompiledProcedure → List RunEvent
  | [] => [.restore, .release]
  | p :: ps =>
    if cancelledAt cancelAt p then [.restore, .release]
    else if fails p then [.restore, .release]
    else .apply p :: runFrom fails cancelAt ps

/-- Modelled from the spec: one component's whole run - acquire the
hardware resource, drive the timeline, restore base state, release
(spec section 4.3). -/
def runComponent (fails : CompiledProcedure → Bool) (cancelAt : Option Nat)
    (tl : List CompiledProcedure) : List RunEvent :=
  .acquire :: runFrom fails cancelAt tl

/-- Point update of a live attribute mapping. -/
def setAttr (m : String → Option String) (k v : String) :
    String → Option String :=
  fun a => if a = k then some v else m a

/-- Application of a procedure's attribute mapping to the live mapping, one
assignment at a time. -/
def applyValues (m : String → Option String) :
    List (String × String) → String → Option String
  | [] => m
  | (k, v) :: rest => applyValues (setAttr m k v) rest

/-- Effect of one run event on the live attribute mapping: applying a
procedure applies its values; restoration applies the base state;
acquisition and release do not touch attributes. -/
def stepEvent (base : List (String × String))
    (m : String → Option String) : RunEvent → String → Option String
  | .apply p => applyValues m p.values
  | .restore => applyValues m base
  | .acquire => m
  | .release => m

/-- The live attribute mapping after a trace of run events. -/
def finalMapping (base : List (String × String))
    (m0 : String → Option String) (evs : List RunEvent) :
    String → Option String :=
  evs.foldl (stepEvent base) m0

/-- Lookup of an attribute in an attribute-to-value association list. -/
def lookupAttr (a : String) : List (String × String) → Option String
  | [] => none
  | (k, v) :: rest => if a = k then some v else lookupAttr a rest

-- The driver capability contract, modelled from spec section 4.1 and the
-- guide's validate_component requirements.

/-- Modelled from the spec: the facially checkable surface of a component
instance, as `validate_component` examines it: the declared attributes with
their current value strings, the `_base_state` mapping when present,
whether the instance is a Sensor, and which driver methods it implements. -/
structure ComponentInstance where
  isSensor : Bool
  attrs : List (String × String)
  baseState : Option (List (String × String))
  hasUpdate : Bool
  hasEnter : Bool
  hasExit : Bool
  hasRead : Bool
deriving DecidableEq

/-- A mapping is a valid attribute mapping for an instance when each key is
a declared attribute and each value parses - exactly the check run on
Protocol.add keyword arguments. `parses` is the opaque unit-parsing
service of the spec. -/
def validAttrMapping (parses : String → Bool) (inst : ComponentInstance)
    (m : List (String × String)) : Bool :=
  m.all (fun kv => inst.attrs.any (fun kv2 => kv2.1 == kv.1) && parses kv.2)

/-- Modelled from the spec: `validate_component` / `validate()`
(src/unnamed/part_000 lines 56-60; spec section 4.1): the declared
attributes parse, a base state exists and is itself a valid attribute
mapping, non-Sensors implement the update method and the acquire/release
pair, Sensors implement the read method instead. -/
def validate_component (parses : String → Bool)
    (inst : ComponentInstance) : Bool :=
  inst.attrs.all (fun kv => parses kv.2) &&
  (match inst.baseState with
   | none => false
   | some b => validAttrMapping parses inst b) &&
  (if inst.isSensor then inst.hasRead
   else inst.hasUpdate && inst.hasEnter && inst.hasExit)

/-- The driver capability contract, stated as the claim words it: declared
attributes parse, a base state exists and is itself a valid attribute
mapping (keys are declared attributes, values parse), non-Sensors implement
update and the acquire/release pair, Sensors implement read instead. -/
def MeetsDriverContract (parses : String → Bool)
    (inst : ComponentInstance) : Prop :=
  (∀ kv ∈ inst.attrs, parses kv.2 = true) ∧
  (∃ b, inst.baseState = some b ∧
    ∀ kv ∈ b, (∃ kv2 ∈ inst.attrs, kv2.1 = kv.1) ∧ parses kv.2 = true) ∧
  (if inst.isSensor then inst.hasRead = true
   else inst.hasUpdate = true ∧ inst.hasEnter = true ∧ inst.hasExit = true)

-- Concrete components from the guide.

/-- A live serial connection to a device, held only between enter and the
matching close. -/
structure SerialConnection where
  port : String
deriving DecidableEq

/-- Modelled from the spec: run-time driver failure (spec section 7
`DriverError`); here, entering a valve with no serial port configured. -/
inductive DriverError where
  | noSerialPort
deriving DecidableEq

/-- The Vici valve of the guide (`components.contrib.vici.ViciValve`): a
name, a position mapping, the serial port needed only on the client, and
the connection that exists only after `__enter__`. -/
structure ViciValve where
  name : Option String
  mapping : List (String × Nat)
  serialPort : Option String
  connection : Option SerialConnection
deriving DecidableEq

/-- Modelled from the spec: `ViciValve.__init__` (guide lines 198-209):
construction records name, mapping and serial port; it opens no connection
and needs no hardware, so it succeeds with the port absent. -/
def ViciValve.init (name : Option String) (mapping : List (String × Nat))
    (serialPort : Option String) : ViciValve :=
  ⟨name, mapping, serialPort, none⟩

/-- Modelled from the spec: `ViciValve.__enter__` (guide lines 147-162 and
238-254): performed when the run starts, it creates the serial connection
from the configured port and returns the valve. -/
def ViciValve.enter (v : ViciValve) : Except DriverError ViciValve :=
  match v.serialPort with
  | none => .error .noSerialPort
  | some p => .ok ⟨v.name, v.mapping, v.serialPort, some ⟨p⟩⟩

/-- Modelled from the spec: `ViciValve.update` (guide lines 222-232): an
asynchronous generator that sends the message to the device and yields the
datum to be reported back to the hub; embedded as the list of values one
invocation yields. -/
def ViciValve.update (_ : ViciValve) : List (Option String) :=
  [some "position set"]

/-- The PhilosophersStone component of the guide (src/unnamed/part_000
lines 113-124): name, optional serial port, and the `rate` attribute
initialised to the parsed `0 g/min`. -/
structure PhilosophersStone where
  name : Option String
  serialPort : Option String
  rate : String
deriving DecidableEq

/-- `PhilosophersStone.__init__` from the guide: construction succeeds with
no serial port and touches no hardware. -/
def PhilosophersStone.init (name : Option String)
    (serialPort : Option String) : PhilosophersStone :=
  ⟨name, serialPort, "0 g/min"⟩

/-- `PhilosophersStone.base_state` from the guide: `dict(rate="0 g/min")`. -/
def PhilosophersStone.base_state (_ : PhilosophersStone) :
    List (String × String) :=
  [("rate", "0 g/min")]

/-- `PhilosophersStone.update` from the guide: an asynchronous generator
whose body is a single bare yield; embedded as the list of values one
invocation yields (one datum, carrying no payload). -/
def PhilosophersStone.update (_ : PhilosophersStone) : List (Option String) :=
  [none]

end MechWolf

namespace MechWolf

-- Conflict-detection lemmas.

theorem conflicts_symm {p q : RawProcedure} (h : conflicts p q = true) :
    conflicts q p = true := by
  simp only [conflicts, overlapB, sharesAttrB, Bool.and_eq_true, decide_eq_true_eq,
    List.any_eq_true, beq_iff_eq] at h ⊢
  obtain ⟨⟨h1, h2⟩, kv, hkv, kv2, hkv2, he⟩ := h
  exact ⟨⟨h2, h1⟩, kv2, hkv2, kv, hkv, he.symm⟩

theorem findConflict_sound :
    ∀ (ps : List RawProcedure) (a b : RawProcedure),
      findConflict ps = some (a, b) →
      a ∈ ps ∧ b ∈ ps ∧ conflicts a b = true
  | [], a, b, h => by simp [findConflict] at h
  | p :: ps, a, b, h => by
    rw [findConflict] at h
    cases hf : ps.find? (fun q => conflicts p q) with
    | some q =>
      rw [hf] at h
      obtain ⟨rfl, rfl⟩ : p = a ∧ q = b := by
        simpa using h
      exact ⟨List.mem_cons_self _ _,
        List.mem_cons_of_mem _ (List.mem_of_find?_eq_some hf),
        List.find?_some hf⟩
    | none =>
      rw [hf] at h
      obtain ⟨ha, hb, hc⟩ := findConflict_sound ps a b h
      exact ⟨List.mem_cons_of_mem _ ha, List.mem_cons_of_mem _ hb, hc⟩

theorem findConflict_isSome :
    ∀ (ps : List RawProcedure) (a b : RawProcedure),
      a ∈ ps → b ∈ ps → a ≠ b → conflicts a b = true →
      ∃ pr, findConflict ps = some pr
  | [], a, _, ha, _, _, _ => absurd ha (List.not_mem_nil a)
  | p :: ps, a, b, ha, hb, hne, hc => by
    rw [findConflict]
    cases hf : ps.find? (fun q => conflicts p q) with
    | some q => exact ⟨(p, q), rfl⟩
    | none =>
      have hnone : ∀ x ∈ ps, ¬ conflicts p x = true := by
        intro x hx
        have := List.find?_eq_none.mp hf x hx
        simpa using this
      rcases List.mem_cons.mp ha with rfl | ha'
      · have hb' : b ∈ ps := by
          rcases List.mem_cons.mp hb with rfl | hb'
          · exact absurd rfl hne
          · exact hb'
        exact absurd hc (hnone b hb')
      · rcases List.mem_cons.mp hb with rfl | hb'
        · exact absurd (conflicts_symm hc) (hnone a ha')
        · exact findConflict_isSome ps a b ha' hb' hne hc

theorem findConflict_eq_none :
    ∀ (ps : List RawProcedure),
      List.Pairwise (fun a b => conflicts a b = false) ps →
      findConflict ps = none
  | [], _ => rfl
  | p :: ps, h => by
    rw [findConflict]
    have hf : ps.find? (fun q => conflicts p q) = none := by
      refine List.find?_eq_none.mpr ?_
      intro x hx
      simp [List.rel_of_pairwise_cons h hx]
    rw [hf]
    exact findConflict_eq_none ps h.of_cons

-- Attribute-validation lemmas.

theorem invalidAttrOf_eq_none (c : ActiveComponent) (ps : List RawProcedure)
    (h : ∀ p ∈ ps, ∀ kv ∈ p.values, kv.1 ∈ c.attrs) :
    invalidAttrOf c ps = none := by
  refine List.findSome?_eq_none.mpr ?_
  intro p hp
  refine List.findSome?_eq_none.mpr ?_
  intro kv hkv
  have hmem : c.attrs.any (fun a => a == kv.1) = true := by
    simp only [List.any_eq_true, beq_iff_eq]
    exact ⟨kv.1, h p hp kv hkv, rfl⟩
  simp [hmem]

-- Membership description of the sorted per-component group.

theorem mem_sortedGroup {c : ActiveComponent} {raw : List RawProcedure}
    {q : RawProcedure} :
    q ∈ List.insertionSort byStart (procsFor c.name raw) ↔
      q ∈ raw ∧ q.component = c.name := by
  rw [(List.perm_insertionSort byStart (procsFor c.name raw)).mem_iff]
  simp [procsFor, List.mem_filter]

end MechWolf

namespace MechWolf

/-- Main structural lemma about gap filling: on a start-sorted, pairwise
separated group whose procedures all lie inside the instant-to-duration
window, the produced timeline is a consecutive cover of that window, every
entry is non-degenerate, and every entry is either a synthesized base-state
filler or one of the group's own procedures. -/
theorem fillGaps_spec (base : List (String × String)) (duration : Nat) :
    ∀ (ps : List RawProcedure) (t : Nat),
      t ≤ duration →
      (∀ p ∈ ps, t ≤ p.start ∧ p.start < p.stop ∧ p.stop ≤ duration) →
      List.Pairwise separated ps →
      chainedFrom t (fillGaps base duration t ps) = true ∧
      lastStopD t (fillGaps base duration t ps) = duration ∧
      (∀ q ∈ fillGaps base duration t ps, q.start < q.stop) ∧
      (∀ q ∈ fillGaps base duration t ps,
        q.values = base ∨
          ∃ p ∈ ps, q.start = p.start ∧ q.stop = p.stop ∧ q.values = p.values)
  | [], t, ht, _, _ => by
    by_cases hlt : t < duration
    · simp [fillGaps, hlt, chainedFrom, lastStopD]
    · have : t = duration := Nat.le_antisymm ht (Nat.le_of_not_lt hlt)
      simp [fillGaps, hlt, chainedFrom, lastStopD, this]
  | p :: ps, t, ht, hwf, hsep => by
    obtain ⟨htp, hps, hpd⟩ := hwf p (List.mem_cons_self p ps)
    have hmax : max t p.stop = p.stop :=
      Nat.max_eq_right (Nat.le_trans htp (Nat.le_of_lt hps))
    have hwf' : ∀ q ∈ ps, p.stop ≤ q.start ∧ q.start < q.stop ∧ q.stop ≤ duration := by
      intro q hq
      obtain ⟨_, h2, h3⟩ := hwf q (List.mem_cons_of_mem _ hq)
      exact ⟨List.rel_of_pairwise_cons hsep hq, h2, h3⟩
    have ih := fillGaps_spec base duration ps p.stop hpd
      (fun q hq => hwf' q hq) hsep.of_cons
    obtain ⟨ih1, ih2, ih3, ih4⟩ := ih
    by_cases hflt : t < p.start
    · rw [fillGaps, if_pos hflt, hmax]
      refine ⟨?_, ?_, ?_, ?_⟩
      · simp [chainedFrom, ih1]
      · simpa [lastStopD] using ih2
      · intro q hq
        rcases List.mem_cons.mp hq with rfl | hq'
        · exact hflt
        rcases List.mem_cons.mp hq' with rfl | hq''
        · exact hps
        · exact ih3 q hq''
      · intro q hq
        rcases List.mem_cons.mp hq with rfl | hq'
        · exact Or.inl rfl
        rcases List.mem_cons.mp hq' with rfl | hq''
        · exact Or.inr ⟨p, List.mem_cons_self p ps, rfl, rfl, rfl⟩
        · rcases ih4 q hq'' with h | ⟨r, hr, he⟩
          · exact Or.inl h
          · exact Or.inr ⟨r, List.mem_cons_of_mem _ hr, he⟩
    · have hteq : t = p.start := Nat.le_antisymm htp (Nat.le_of_not_lt hflt)
      rw [fillGaps, if_neg hflt, hmax]
      refine ⟨?_, ?_, ?_, ?_⟩
      · simp [chainedFrom, ih1, hteq]
      · simpa [lastStopD] using ih2
      · intro q hq
        rcases List.mem_cons.mp hq with rfl | hq'
        · exact hps
        · exact ih3 q hq'
      · intro q hq
        rcases List.mem_cons.mp hq with rfl | hq'
        · exact Or.inr ⟨p, List.mem_cons_self p ps, rfl, rfl, rfl⟩
        · rcases ih4 q hq' with h | ⟨r, hr, he⟩
          · exact Or.inl h
          · exact Or.inr ⟨r, List.mem_cons_of_mem _ hr, he⟩

/-- If a timeline is a consecutive non-degenerate cover of the window from
0 to a positive duration, it is a partition of that window. -/
theorem isPartition_of_spec {duration : Nat} {tl : List CompiledProcedure}
    (hd : 0 < duration)
    (h1 : chainedFrom 0 tl = true)
    (h2 : lastStopD 0 tl = duration)
    (h3 : ∀ q ∈ tl, q.start < q.stop) :
    isPartition duration tl = true := by
  cases tl with
  | nil =>
    exact absurd h2 (Nat.ne_of_lt hd)
  | cons p ps =>
    simp only [isPartition, List.isEmpty_cons, Bool.not_false, Bool.true_and,
      Bool.and_eq_true, beq_iff_eq, List.all_eq_true, decide_eq_true_eq]
    exact ⟨⟨h1, h2⟩, fun q hq => h3 q hq⟩

end MechWolf

namespace MechWolf

theorem timeDisjoint_symm : Symmetric timeDisjoint := by
  intro p q h hc
  exact (h hc.symm).symm

/-- On the sorted group of a component, well-formedness and pairwise
time-disjointness yield pairwise separation. -/
theorem sortedGroup_separated (c : ActiveComponent) (raw : List RawProcedure)
    (hwf : ∀ p ∈ raw, p.start < p.stop)
    (hdis : List.Pairwise timeDisjoint raw) :
    List.Pairwise separated (List.insertionSort byStart (procsFor c.name raw)) := by
  have hdis1 : List.Pairwise timeDisjoint (procsFor c.name raw) :=
    List.Pairwise.sublist (List.filter_sublist raw) hdis
  have hdis2 : List.Pairwise timeDisjoint
      (List.insertionSort byStart (procsFor c.name raw)) :=
    ((List.perm_insertionSort byStart (procsFor c.name raw)).pairwise_iff
      (fun hab => timeDisjoint_symm hab)).mpr hdis1
  have hsorted : List.Pairwise byStart
      (List.insertionSort byStart (procsFor c.name raw)) :=
    List.sorted_insertionSort byStart (procsFor c.name raw)
  have hboth := hsorted.and hdis2
  refine hboth.imp_of_mem ?_
  intro p q hp hq hpq
  obtain ⟨hps, hpd⟩ := hpq
  have hpc := (mem_sortedGroup.mp hp)
  have hqc := (mem_sortedGroup.mp hq)
  rcases hpd (hpc.2.trans hqc.2.symm) with h | h
  · exact h
  · have hq2 : q.start < q.stop := hwf q hqc.1
    exact absurd (Nat.lt_of_lt_of_le hq2 (Nat.le_trans h hps)) (Nat.lt_irrefl _)

/-- Inversion of a successful group compilation. -/
theorem compileGroup_ok {c : ActiveComponent} {duration : Nat}
    {ps : List RawProcedure} {tl : List CompiledProcedure}
    (h : compileGroup c duration ps = .ok tl) :
    findConflict ps = none ∧ invalidAttrOf c ps = none ∧
      tl = fillGaps c.base duration 0 ps := by
  unfold compileGroup at h
  cases hf : findConflict ps with
  | some pr => rw [hf] at h; exact absurd h (by simp)
  | none =>
    rw [hf] at h
    cases hi : invalidAttrOf c ps with
    | some a => rw [hi] at h; exact absurd h (by simp)
    | none =>
      rw [hi] at h
      refine ⟨rfl, rfl, ?_⟩
      simpa using h.symm

/-- Inversion of a successful per-component compilation. -/
theorem compileComponent_ok {c : ActiveComponent} {raw : List RawProcedure}
    {duration : Nat} {tl : List CompiledProcedure}
    (h : compileComponent c raw duration = .ok tl) :
    tl = fillGaps c.base duration 0
      (List.insertionSort byStart (procsFor c.name raw)) :=
  (compileGroup_ok h).2.2

/-- The timeline a successful per-component compilation produces is a
partition of the window, and each of its entries is either a base-state
filler or one of the component's own raw procedures. -/
theorem compileComponent_partition {c : ActiveComponent} {raw : List RawProcedure}
    {duration : Nat} {tl : List CompiledProcedure}
    (h : compileComponent c raw duration = .ok tl)
    (hwf : ∀ p ∈ raw, p.start < p.stop ∧ p.stop ≤ duration)
    (hdis : List.Pairwise timeDisjoint raw)
    (hd : 0 < duration) :
    isPartition duration tl = true ∧
      ∀ q ∈ tl, q.values = c.base ∨
        ∃ p ∈ raw, p.component = c.name ∧
          q.start = p.start ∧ q.stop = p.stop ∧ q.values = p.values := by
  have htl := compileComponent_ok h
  have hsep := sortedGroup_separated c raw (fun p hp => (hwf p hp).1) hdis
  have hmem : ∀ p ∈ List.insertionSort byStart (procsFor c.name raw),
      0 ≤ p.start ∧ p.start < p.stop ∧ p.stop ≤ duration := by
    intro p hp
    have hpc := mem_sortedGroup.mp hp
    exact ⟨Nat.zero_le _, (hwf p hpc.1).1, (hwf p hpc.1).2⟩
  obtain ⟨h1, h2, h3, h4⟩ := fillGaps_spec c.base duration
    (List.insertionSort byStart (procsFor c.name raw)) 0 (Nat.zero_le _) hmem hsep
  subst htl
  refine ⟨isPartition_of_spec hd h1 h2 h3, ?_⟩
  intro q hq
  rcases h4 q hq with hb | ⟨p, hp, he⟩
  · exact Or.inl hb
  · have hpc := mem_sortedGroup.mp hp
    exact Or.inr ⟨p, hpc.1, hpc.2, he⟩

/-- Inversion of a successful whole-apparatus compilation. -/
theorem compile_ok_cons {c : ActiveComponent} {cs : List ActiveComponent}
    {raw : List RawProcedure} {duration : Nat}
    {tls : List (String × List CompiledProcedure)}
    (h : compile (c :: cs) raw duration = .ok tls) :
    ∃ tl tls', compileComponent c raw duration = .ok tl ∧
      compile cs raw duration = .ok tls' ∧ tls = (c.name, tl) :: tls' := by
  unfold compile at h
  cases h1 : compileComponent c raw duration with
  | error e => rw [h1] at h; exact absurd h (by simp)
  | ok tl =>
    rw [h1] at h
    cases h2 : compile cs raw duration with
    | error e => rw [h2] at h; exact absurd h (by simp)
    | ok rest =>
      rw [h2] at h
      exact ⟨tl, rest, rfl, rfl, by simpa using h.symm⟩

end MechWolf

namespace MechWolf

/-- Claim C1 (amended): for every apparatus and list of well-formed raw
procedures that are pairwise time-disjoint on each component, and every
positive duration bounding them, the timeline compile produces for every
ActiveComponent of the apparatus partitions the window from 0 to duration -
totally ordered, pairwise non-overlapping, gapless - with synthesized
base-state procedures filling every uncovered interval (every entry is
either a base-state filler or one of the component's raw procedures). -/
theorem claim1_compile_partitions_when_time_disjoint
    (app : List ActiveComponent) (raw : List RawProcedure) (duration : Nat)
    (tls : List (String × List CompiledProcedure))
    (happ : compile app raw duration = .ok tls)
    (hwf : ∀ p ∈ raw, p.start < p.stop ∧ p.stop ≤ duration)
    (hdis : List.Pairwise timeDisjoint raw)
    (hd : 0 < duration) :
    ∀ c ∈ app, ∃ tl, (c.name, tl) ∈ tls ∧ isPartition duration tl = true ∧
      ∀ q ∈ tl, q.values = c.base ∨
        ∃ p ∈ raw, p.component = c.name ∧
          q.start = p.start ∧ q.stop = p.stop ∧ q.values = p.values := by
  induction app generalizing tls with
  | nil => intro c hc; exact absurd hc (List.not_mem_nil c)
  | cons c0 cs ih =>
    obtain ⟨tl, tls', h1, h2, rfl⟩ := compile_ok_cons happ
    intro c hc
    rcases List.mem_cons.mp hc with rfl | hc'
    · obtain ⟨hp1, hp2⟩ := compileComponent_partition h1 hwf hdis hd
      exact ⟨tl, List.mem_cons_self _ _, hp1, hp2⟩
    · obtain ⟨tl', hm, hp1, hp2⟩ := ih tls' h2 c hc'
      exact ⟨tl', List.mem_cons_of_mem _ hm, hp1, hp2⟩

/-- Claim C1, counterexample to the claim as stated: the spec's own valve
example - two raw procedures on `valve1` with overlapping time ranges but
disjoint attribute sets - is a valid input on which compile succeeds, yet
the compiled timeline for `valve1` keeps both overlapping spans and so does
not partition the window from 0 to 15. -/
theorem claim1_partition_counterexample :
    compile [valve1] [valve1Pos, valve1Flush] 15 =
      .ok [("valve1",
        [⟨0, 10, [("position", "B")]⟩, ⟨5, 15, [("flush", "on")]⟩])] ∧
    isPartition 15
      [⟨0, 10, [("position", "B")]⟩, ⟨5, 15, [("flush", "on")]⟩] = false := by
  exact ⟨rfl, rfl⟩

/-- Claim C1, witness: the amended theorem applied to the spec's pump
example. -/
theorem claim1_partition_witness :
    (compile [pump1] [pump1Raw] 30 =
      .ok [("pump1",
        [⟨0, 10, [("rate", "0 mL/min")]⟩,
         ⟨10, 20, [("rate", "5 mL/min")]⟩,
         ⟨20, 30, [("rate", "0 mL/min")]⟩])]) ∧
    (∀ p ∈ [pump1Raw], p.start < p.stop ∧ p.stop ≤ 30) ∧
    List.Pairwise timeDisjoint [pump1Raw] ∧ 0 < 30 ∧
    ∀ c ∈ [pump1], ∃ tl,
      (c.name, tl) ∈ [("pump1",
        [⟨0, 10, [("rate", "0 mL/min")]⟩,
         ⟨10, 20, [("rate", "5 mL/min")]⟩,
         ⟨20, 30, [("rate", "0 mL/min")]⟩])] ∧
      isPartition 30 tl = true ∧
      ∀ q ∈ tl, q.values = c.base ∨
        ∃ p ∈ [pump1Raw], p.component = c.name ∧
          q.start = p.start ∧ q.stop = p.stop ∧ q.values = p.values :=
  ⟨rfl, by decide, by decide, by decide,
    claim1_compile_partitions_when_time_disjoint [pump1] [pump1Raw] 30 _
      rfl (by decide) (by decide) (by decide)⟩

end MechWolf

namespace MechWolf

theorem compile_cons_err {c : ActiveComponent} {cs : List ActiveComponent}
    {raw : List RawProcedure} {duration : Nat} {e : CompileError}
    (h : compileComponent c raw duration = .error e) :
    compile (c :: cs) raw duration = .error e := by
  simp only [compile, h]

theorem compile_cons_err_tail {c : ActiveComponent} {cs : List ActiveComponent}
    {raw : List RawProcedure} {duration : Nat} {e : CompileError}
    {tl : List CompiledProcedure}
    (h1 : compileComponent c raw duration = .ok tl)
    (h2 : compile cs raw duration = .error e) :
    compile (c :: cs) raw duration = .error e := by
  simp only [compile, h1, h2]

/-- When every attribute of every procedure aimed at a component is one of
its declared attributes, a failing per-component compilation can only be a
procedure conflict, and the reported pair genuinely conflicts. -/
theorem compileComponent_error_is_conflict {c : ActiveComponent}
    {raw : List RawProcedure} {duration : Nat} {e : CompileError}
    (h : compileComponent c raw duration = .error e)
    (hvalid : ∀ r ∈ raw, r.component = c.name → ∀ kv ∈ r.values, kv.1 ∈ c.attrs) :
    ∃ a b, e = .procedureConflict a b ∧ a ∈ raw ∧ b ∈ raw ∧
      a.component = c.name ∧ b.component = c.name ∧ conflicts a b = true := by
  unfold compileComponent compileGroup at h
  cases hf : findConflict (List.insertionSort byStart (procsFor c.name raw)) with
  | some pr =>
    rw [hf] at h
    obtain ⟨ha, hb, hc⟩ := findConflict_sound _ pr.1 pr.2 (by rw [hf])
    have ha' := mem_sortedGroup.mp ha
    have hb' := mem_sortedGroup.mp hb
    refine ⟨pr.1, pr.2, ?_, ha'.1, hb'.1, ha'.2, hb'.2, hc⟩
    simpa using h.symm
  | none =>
    rw [hf] at h
    have hi : invalidAttrOf c
        (List.insertionSort byStart (procsFor c.name raw)) = none := by
      refine invalidAttrOf_eq_none c _ ?_
      intro p hp kv hkv
      have hp' := mem_sortedGroup.mp hp
      exact hvalid p hp'.1 hp'.2 kv hkv
    rw [hi] at h
    exact absurd h (by simp)

/-- A component among whose raw procedures a genuine conflict exists never
compiles successfully. -/
theorem compileComponent_conflict_fails {c : ActiveComponent}
    {raw : List RawProcedure} {duration : Nat} {p q : RawProcedure}
    (hp : p ∈ raw) (hq : q ∈ raw) (hne : p ≠ q)
    (hpc : p.component = c.name) (hqc : q.component = c.name)
    (hconf : conflicts p q = true) :
    ∃ e, compileComponent c raw duration = .error e := by
  have hp' : p ∈ List.insertionSort byStart (procsFor c.name raw) :=
    mem_sortedGroup.mpr ⟨hp, hpc⟩
  have hq' : q ∈ List.insertionSort byStart (procsFor c.name raw) :=
    mem_sortedGroup.mpr ⟨hq, hqc⟩
  obtain ⟨pr, hpr⟩ := findConflict_isSome _ p q hp' hq' hne hconf
  refine ⟨.procedureConflict pr.1 pr.2, ?_⟩
  unfold compileComponent compileGroup
  rw [hpr]

/-- Claim C2: for every pair of distinct raw procedures targeting the same
apparatus component, whose time ranges overlap (equal or intersecting) and
whose attribute mappings share at least one attribute name, compile - on an
input whose attribute names are otherwise valid - always fails with a
ProcedureConflictError, and that error names two genuinely conflicting
procedures of the input. -/
theorem claim2_conflict_always_reported
    (app : List ActiveComponent) (raw : List RawProcedure) (duration : Nat)
    (c : ActiveComponent) (p q : RawProcedure)
    (hc : c ∈ app) (hp : p ∈ raw) (hq : q ∈ raw) (hne : p ≠ q)
    (hpc : p.component = c.name) (hqc : q.component = c.name)
    (hconf : conflicts p q = true)
    (hvalid : ∀ c' ∈ app, ∀ r ∈ raw, r.component = c'.name →
      ∀ kv ∈ r.values, kv.1 ∈ c'.attrs) :
    ∃ a b, compile app raw duration = .error (.procedureConflict a b) ∧
      a ∈ raw ∧ b ∈ raw ∧ a.component = b.component ∧
      conflicts a b = true := by
  induction app with
  | nil => exact absurd hc (List.not_mem_nil c)
  | cons c0 cs ih =>
    cases h0 : compileComponent c0 raw duration with
    | error e =>
      obtain ⟨a, b, rfl, ha, hb, hac, hbc, hab⟩ :=
        compileComponent_error_is_conflict h0
          (hvalid c0 (List.mem_cons_self _ _))
      exact ⟨a, b, compile_cons_err h0, ha, hb, hac.trans hbc.symm, hab⟩
    | ok tl =>
      rcases List.mem_cons.mp hc with rfl | hc'
      · obtain ⟨e, he⟩ :=
          @compileComponent_conflict_fails c raw duration p q
            hp hq hne hpc hqc hconf
        rw [h0] at he
        exact absurd he (by simp)
      · obtain ⟨a, b, herr, ha, hb, hab, hcf⟩ :=
          ih hc' (fun c' hc'' => hvalid c' (List.mem_cons_of_mem _ hc''))
        exact ⟨a, b, compile_cons_err_tail h0 herr, ha, hb, hab, hcf⟩

/-- Claim C2, witness: two overlapping procedures on pump1's `rate`
attribute are rejected with a ProcedureConflictError. -/
theorem claim2_conflict_witness :
    (pump1 ∈ [pump1] ∧ pump1Raw ∈ [pump1Raw, pump1RawB] ∧
      pump1RawB ∈ [pump1Raw, pump1RawB] ∧ pump1Raw ≠ pump1RawB ∧
      pump1Raw.component = pump1.name ∧ pump1RawB.component = pump1.name ∧
      conflicts pump1Raw pump1RawB = true ∧
      (∀ c' ∈ [pump1], ∀ r ∈ [pump1Raw, pump1RawB], r.component = c'.name →
        ∀ kv ∈ r.values, kv.1 ∈ c'.attrs)) ∧
    ∃ a b, compile [pump1] [pump1Raw, pump1RawB] 30 =
        .error (.procedureConflict a b) ∧
      a ∈ [pump1Raw, pump1RawB] ∧ b ∈ [pump1Raw, pump1RawB] ∧
      a.component = b.component ∧ conflicts a b = true :=
  ⟨by decide,
    claim2_conflict_always_reported [pump1] [pump1Raw, pump1RawB] 30
      pump1 pump1Raw pump1RawB (by decide) (by decide) (by decide) (by decide)
      (by decide) (by decide) (by decide) (by decide)⟩

end MechWolf

namespace MechWolf

/-- A component targeted by no raw procedure compiles to the single
base-state procedure spanning the whole window. -/
theorem compileComponent_untargeted {c : ActiveComponent}
    {raw : List RawProcedure} {duration : Nat}
    (hnone : ∀ p ∈ raw, p.component ≠ c.name)
    (hd : 0 < duration) :
    compileComponent c raw duration = .ok [⟨0, duration, c.base⟩] := by
  have hfil : procsFor c.name raw = [] := by
    refine List.filter_eq_nil.mpr ?_
    intro p hp
    simpa using hnone p hp
  unfold compileComponent
  rw [hfil]
  simp [compileGroup, findConflict, invalidAttrOf, fillGaps, hd]

/-- Claim C4: for every ActiveComponent of the apparatus that is the target
of no raw procedure, a successful compile produces for it the timeline
consisting of exactly one procedure: the base-state procedure spanning the
window from 0 to duration. -/
theorem claim4_no_procs_single_base
    (app : List ActiveComponent) (raw : List RawProcedure) (duration : Nat)
    (tls : List (String × List CompiledProcedure)) (c : ActiveComponent)
    (hok : compile app raw duration = .ok tls)
    (hc : c ∈ app)
    (hnone : ∀ p ∈ raw, p.component ≠ c.name)
    (hd : 0 < duration) :
    (c.name, [⟨0, duration, c.base⟩]) ∈ tls := by
  induction app generalizing tls with
  | nil => exact absurd hc (List.not_mem_nil c)
  | cons c0 cs ih =>
    obtain ⟨tl, tls', h1, h2, rfl⟩ := compile_ok_cons hok
    rcases List.mem_cons.mp hc with rfl | hc'
    · have h3 := @compileComponent_untargeted c raw duration hnone hd
      rw [h1] at h3
      obtain rfl : tl = [⟨0, duration, c.base⟩] := by simpa using h3
      exact List.mem_cons_self _ _
    · exact List.mem_cons_of_mem _ (ih tls' h2 hc')

/-- Claim C4, witness: an apparatus holding pump1 and valve1 where only
pump1 is targeted; valve1 gets the single base-state procedure. -/
theorem claim4_no_procs_witness :
    (∀ p ∈ [pump1Raw], p.component ≠ valve1.name) ∧ 0 < 30 ∧
    (valve1.name, [⟨0, 30, valve1.base⟩]) ∈
      ([("pump1",
        [⟨0, 10, [("rate", "0 mL/min")]⟩,
         ⟨10, 20, [("rate", "5 mL/min")]⟩,
         ⟨20, 30, [("rate", "0 mL/min")]⟩]),
       ("valve1", [⟨0, 30, [("position", "A"), ("flush", "off")]⟩])] :
        List (String × List CompiledProcedure)) :=
  ⟨by decide, by decide,
    claim4_no_procs_single_base [pump1, valve1] [pump1Raw] 30 _ valve1
      rfl (by decide) (by decide) (by decide)⟩

theorem sharesAttrB_true_symm {p q : RawProcedure}
    (h : sharesAttrB p q = true) : sharesAttrB q p = true := by
  simp only [sharesAttrB, List.any_eq_true, beq_iff_eq] at h ⊢
  obtain ⟨kv, hkv, kv2, hkv2, he⟩ := h
  exact ⟨kv2, hkv2, kv, hkv, he.symm⟩

theorem sharesAttrB_symm {p q : RawProcedure} (h : sharesAttrB p q = false) :
    sharesAttrB q p = false := by
  cases hqp : sharesAttrB q p with
  | false => rfl
  | true => exact absurd (sharesAttrB_true_symm hqp) (by simp [h])

/-- Claim C5: when every pair of distinct raw procedures on the same
component has disjoint attribute sets (and all attribute names are valid),
compile succeeds without error, even when their time ranges overlap. -/
theorem claim5_disjoint_attrs_compile_ok
    (app : List ActiveComponent) (raw : List RawProcedure) (duration : Nat)
    (hnoshare : List.Pairwise
      (fun p q => p.component = q.component → sharesAttrB p q = false) raw)
    (hvalid : ∀ c ∈ app, ∀ r ∈ raw, r.component = c.name →
      ∀ kv ∈ r.values, kv.1 ∈ c.attrs) :
    ∃ tls, compile app raw duration = .ok tls := by
  induction app with
  | nil => exact ⟨[], rfl⟩
  | cons c0 cs ih =>
    have hnoconf : findConflict
        (List.insertionSort byStart (procsFor c0.name raw)) = none := by
      refine findConflict_eq_none _ ?_
      have h1 : List.Pairwise
          (fun p q : RawProcedure =>
            p.component = q.component → sharesAttrB p q = false)
          (procsFor c0.name raw) :=
        List.Pairwise.sublist (List.filter_sublist raw) hnoshare
      have h2 : List.Pairwise
          (fun p q : RawProcedure =>
            p.component = q.component → sharesAttrB p q = false)
          (List.insertionSort byStart (procsFor c0.name raw)) := by
        refine ((List.perm_insertionSort byStart
          (procsFor c0.name raw)).pairwise_iff ?_).mpr h1
        intro p q h hc
        exact sharesAttrB_symm (h hc.symm)
      refine h2.imp_of_mem ?_
      intro p q hp hq hpq
      have hpc := mem_sortedGroup.mp hp
      have hqc := mem_sortedGroup.mp hq
      have hsh := hpq (hpc.2.trans hqc.2.symm)
      simp [conflicts, hsh]
    have hnoinv : invalidAttrOf c0
        (List.insertionSort byStart (procsFor c0.name raw)) = none := by
      refine invalidAttrOf_eq_none c0 _ ?_
      intro p hp kv hkv
      have hp' := mem_sortedGroup.mp hp
      exact hvalid c0 (List.mem_cons_self _ _) p hp'.1 hp'.2 kv hkv
    have hok : compileComponent c0 raw duration =
        .ok (fillGaps c0.base duration 0
          (List.insertionSort byStart (procsFor c0.name raw))) := by
      unfold compileComponent compileGroup
      rw [hnoconf, hnoinv]
    obtain ⟨tls', h2⟩ := ih (fun c hc => hvalid c (List.mem_cons_of_mem _ hc))
    refine ⟨(c0.name, fillGaps c0.base duration 0
      (List.insertionSort byStart (procsFor c0.name raw))) :: tls', ?_⟩
    simp only [compile, hok, h2]

/-- Claim C5, witness: the spec's valve1 example - `position` over t=0-10
and `flush` over t=5-15 overlap in time but have disjoint attribute sets,
and compile succeeds. -/
theorem claim5_disjoint_attrs_witness :
    List.Pairwise
      (fun p q => p.component = q.component → sharesAttrB p q = false)
      [valve1Pos, valve1Flush] ∧
    ∃ tls, compile [valve1] [valve1Pos, valve1Flush] 15 = .ok tls :=
  ⟨by decide,
    claim5_disjoint_attrs_compile_ok [valve1] [valve1Pos, valve1Flush] 15
      (by decide) (by decide)⟩

/-- Claim C6: compiling pump1's single raw procedure (rate 5 mL/min over
t=10s to t=20s, base state rate 0 mL/min) over a 30-second run yields
exactly the three-procedure timeline: base state on the span 0-10, the user
procedure on 10-20, base state on 20-30. -/
theorem claim6_pump1_example :
    compile [pump1] [pump1Raw] 30 =
      .ok [("pump1",
        [⟨0, 10, [("rate", "0 mL/min")]⟩,
         ⟨10, 20, [("rate", "5 mL/min")]⟩,
         ⟨20, 30, [("rate", "0 mL/min")]⟩])] := by
  rfl

end MechWolf

namespace MechWolf

-- Live-mapping lemmas for the executor.

theorem lookupAttr_eq_none_iff (a : String) :
    ∀ (l : List (String × String)),
      lookupAttr a l = none ↔ a ∉ l.map Prod.fst
  | [] => by simp [lookupAttr]
  | (k, v) :: rest => by
    by_cases h : a = k
    · subst h
      simp [lookupAttr]
    · simp [lookupAttr, h, lookupAttr_eq_none_iff a rest]

theorem applyValues_or (a : String) :
    ∀ (l : List (String × String)) (m : String → Option String),
      (l.map Prod.fst).Nodup →
      applyValues m l a = (lookupAttr a l).or (m a)
  | [], m, _ => by simp [applyValues, lookupAttr]
  | (k, v) :: rest, m, hnd => by
    have hnd2 : (k :: rest.map Prod.fst).Nodup := by simpa using hnd
    rw [applyValues, applyValues_or a rest (setAttr m k v)
      (List.nodup_cons.mp hnd2).2]
    by_cases h : a = k
    · subst h
      have hnone : lookupAttr a rest = none :=
        (lookupAttr_eq_none_iff a rest).mpr (List.nodup_cons.mp hnd2).1
      simp [lookupAttr, hnone, setAttr]
    · simp [lookupAttr, h, setAttr]

theorem applyValues_not_mem (ks : List String) :
    ∀ (l : List (String × String)) (m : String → Option String),
      (∀ b, b ∉ ks → m b = none) →
      (∀ kv ∈ l, kv.1 ∈ ks) →
      ∀ a, a ∉ ks → applyValues m l a = none
  | [], m, hm, _, a, ha => hm a ha
  | (k, v) :: rest, m, hm, hl, a, ha => by
    rw [applyValues]
    refine applyValues_not_mem ks rest (setAttr m k v) ?_
      (fun kv hkv => hl kv (List.mem_cons_of_mem _ hkv)) a ha
    intro b hb
    have hk : k ∈ ks := hl (k, v) (List.mem_cons_self _ _)
    have hbk : b ≠ k := fun he => hb (he ▸ hk)
    simp [setAttr, hbk, hm b hb]

theorem restore_release_final (base : List (String × String))
    (m : String → Option String)
    (hnd : (base.map Prod.fst).Nodup)
    (hdom : ∀ b, b ∉ base.map Prod.fst → m b = none) (a : String) :
    List.foldl (stepEvent base) m [RunEvent.restore, RunEvent.release] a =
      lookupAttr a base := by
  simp only [List.foldl, stepEvent]
  rw [applyValues_or a base m hnd]
  cases hlk : lookupAttr a base with
  | some v => simp
  | none =>
    have hmem : a ∉ base.map Prod.fst := (lookupAttr_eq_none_iff a base).mp hlk
    simp [hdom a hmem]

theorem runFrom_restores (base : List (String × String))
    (fails : CompiledProcedure → Bool) (cancelAt : Option Nat) :
    ∀ (tl : List CompiledProcedure) (m : String → Option String),
      (base.map Prod.fst).Nodup →
      (∀ b, b ∉ base.map Prod.fst → m b = none) →
      (∀ p ∈ tl, ∀ kv ∈ p.values, kv.1 ∈ base.map Prod.fst) →
      ∀ a, List.foldl (stepEvent base) m (runFrom fails cancelAt tl) a =
        lookupAttr a base
  | [], m, hnd, hdom, _, a => restore_release_final base m hnd hdom a
  | p :: ps, m, hnd, hdom, hproc, a => by
    rw [runFrom]
    by_cases h1 : cancelledAt cancelAt p
    · rw [if_pos h1]
      exact restore_release_final base m hnd hdom a
    · rw [if_neg h1]
      by_cases h2 : fails p
      · rw [if_pos h2]
        exact restore_release_final base m hnd hdom a
      · rw [if_neg h2]
        have hdom' : ∀ b, b ∉ base.map Prod.fst →
            applyValues m p.values b = none :=
          applyValues_not_mem (base.map Prod.fst) p.values m hdom
            (hproc p (List.mem_cons_self _ _))
        have ih := runFrom_restores base fails cancelAt ps
          (applyValues m p.values) hnd hdom'
          (fun q hq => hproc q (List.mem_cons_of_mem _ hq)) a
        simpa [stepEvent] using ih

/-- Claim C3: for every run of the executor over a compiled timeline -
whether it ends in success (no cancellation, no failure), in failure (the
driver fails on some procedure), or in cancellation at any instant - the
component's live attribute mapping after the run equals its base state:
base-state restoration is the terminal action of every run. -/
theorem claim3_run_restores_base_state
    (base : List (String × String)) (m0 : String → Option String)
    (fails : CompiledProcedure → Bool) (cancelAt : Option Nat)
    (tl : List CompiledProcedure)
    (hnd : (base.map Prod.fst).Nodup)
    (hdom : ∀ b, b ∉ base.map Prod.fst → m0 b = none)
    (hproc : ∀ p ∈ tl, ∀ kv ∈ p.values, kv.1 ∈ base.map Prod.fst) :
    ∀ a, finalMapping base m0 (runComponent fails cancelAt tl) a =
      lookupAttr a base := by
  intro a
  unfold finalMapping runComponent
  rw [List.foldl_cons]
  have hacq : stepEvent base m0 RunEvent.acquire = m0 := rfl
  rw [hacq]
  exact runFrom_restores base fails cancelAt tl m0 hnd hdom hproc a

/-- Claim C3, witness: a pump run over one procedure - starting from an
uninitialised live mapping - ends with the live mapping equal to the base
state. -/
theorem claim3_run_restores_witness :
    (([("rate", "0 mL/min")].map Prod.fst).Nodup ∧
     (∀ b, b ∉ [("rate", "0 mL/min")].map Prod.fst →
       (fun _ : String => (none : Option String)) b = none) ∧
     (∀ p ∈ [(⟨10, 20, [("rate", "5 mL/min")]⟩ : CompiledProcedure)],
       ∀ kv ∈ p.values, kv.1 ∈ [("rate", "0 mL/min")].map Prod.fst)) ∧
    ∀ a, finalMapping [("rate", "0 mL/min")] (fun _ => none)
        (runComponent (fun _ => false) none
          [⟨10, 20, [("rate", "5 mL/min")]⟩]) a =
      lookupAttr a [("rate", "0 mL/min")] :=
  ⟨⟨by decide, fun _ _ => rfl, by decide⟩,
    claim3_run_restores_base_state [("rate", "0 mL/min")] (fun _ => none)
      (fun _ => false) none [⟨10, 20, [("rate", "5 mL/min")]⟩]
      (by decide) (fun _ _ => rfl) (by decide)⟩

-- Cancellation behaviour.

theorem runFrom_cancel_eq (T : Nat) :
    ∀ (tl : List CompiledProcedure),
      runFrom (fun _ => false) (some T) tl =
        (tl.takeWhile (fun p => decide (p.start ≤ T))).map RunEvent.apply ++
          [RunEvent.restore, RunEvent.release]
  | [] => by simp [runFrom]
  | p :: ps => by
    rw [runFrom]
    by_cases h : T < p.start
    · have h2 : decide (p.start ≤ T) = false := by
        simp [Nat.not_le.mpr h]
      simp [cancelledAt, h, List.takeWhile_cons, h2]
    · have hle : p.start ≤ T := Nat.le_of_not_lt h
      have h2 : decide (p.start ≤ T) = true := by simp [hle]
      simp [cancelledAt, h, List.takeWhile_cons, h2,
        runFrom_cancel_eq T ps]

theorem mem_takeWhile_pred {α : Type} (p : α → Bool) :
    ∀ (l : List α) (a : α), a ∈ l.takeWhile p → p a = true
  | [], a, h => by simp [List.takeWhile] at h
  | x :: xs, a, h => by
    rw [List.takeWhile_cons] at h
    by_cases hx : p x
    · rw [if_pos hx] at h
      rcases List.mem_cons.mp h with rfl | h'
      · exact hx
      · exact mem_takeWhile_pred p xs a h'
    · rw [if_neg hx] at h
      exact absurd h (List.not_mem_nil a)

/-- Claim C7: in a run cancelled at time T, a component applies exactly the
prefix of its timeline whose procedures start at or before T - so its last
applied procedure is the one active at or before T - and then immediately
performs base-state restoration (followed by release); no procedure whose
scheduled start time is after T is ever applied. -/
theorem claim7_cancel_applies_only_before (T : Nat)
    (tl : List CompiledProcedure) :
    runComponent (fun _ => false) (some T) tl =
      RunEvent.acquire ::
        ((tl.takeWhile (fun p => decide (p.start ≤ T))).map RunEvent.apply ++
          [RunEvent.restore, RunEvent.release]) ∧
    ∀ p : CompiledProcedure,
      RunEvent.apply p ∈ runComponent (fun _ => false) (some T) tl →
        p.start ≤ T := by
  constructor
  · unfold runComponent
    rw [runFrom_cancel_eq]
  · intro p hp
    unfold runComponent at hp
    rw [runFrom_cancel_eq] at hp
    rcases List.mem_cons.mp hp with h | h
    · exact absurd h (by simp)
    rcases List.mem_append.mp h with h2 | h2
    · obtain ⟨q, hq, he⟩ := List.mem_map.mp h2
      obtain rfl : q = p := by simpa using he
      simpa using mem_takeWhile_pred _ tl q hq
    · simp at h2

end MechWolf

namespace MechWolf

/-- Claim C8: `validate_component`, applied to a component instance,
returns true if and only if the instance meets the driver capability
contract: its declared attributes exist and parse, a base state exists and
is itself a valid attribute mapping (parsable exactly as Protocol.add
keyword arguments), non-Sensors implement the update method and the
acquire/release pair, and Sensors implement the read method instead. -/
theorem claim8_validate_component_iff (parses : String → Bool)
    (inst : ComponentInstance) :
    validate_component parses inst = true ↔ MeetsDriverContract parses inst := by
  obtain ⟨sensor, attrs, bs, u, en, ex, r⟩ := inst
  cases bs with
  | none =>
    simp [validate_component, MeetsDriverContract]
  | some b =>
    cases sensor <;>
      simp [validate_component, MeetsDriverContract, validAttrMapping,
        List.all_eq_true, List.any_eq_true, Bool.and_eq_true, beq_iff_eq] <;>
      tauto

theorem acquire_not_mem_runFrom (fails : CompiledProcedure → Bool)
    (cancelAt : Option Nat) :
    ∀ (tl : List CompiledProcedure),
      RunEvent.acquire ∉ runFrom fails cancelAt tl
  | [] => by simp [runFrom]
  | p :: ps => by
    intro hmem
    rw [runFrom] at hmem
    by_cases h1 : cancelledAt cancelAt p
    · rw [if_pos h1] at hmem
      simp at hmem
    · rw [if_neg h1] at hmem
      by_cases h2 : fails p
      · rw [if_pos h2] at hmem
        simp at hmem
      · rw [if_neg h2] at hmem
        rcases List.mem_cons.mp hmem with h | h
        · exact absurd h (by simp)
        · exact acquire_not_mem_runFrom fails cancelAt ps h

/-- Claim C9: a valve can be constructed without any real-world hardware
configuration - construction succeeds with the serial port absent (and, in
general, opens no connection whatever port is configured) - while the
connection opening is deferred to the enter hook, which the executor
invokes only as the first event of a run (acquisition occurs exactly once,
at the start). -/
theorem claim9_instantiate_without_hardware (n : Option String)
    (mp : List (String × Nat)) :
    (ViciValve.init n mp none).connection = none ∧
    (∀ sp : Option String, (ViciValve.init n mp sp).connection = none) ∧
    (∀ p : String, (ViciValve.init n mp (some p)).enter =
      Except.ok ⟨n, mp, some p, some ⟨p⟩⟩) ∧
    (∀ (fails : CompiledProcedure → Bool) (cancelAt : Option Nat)
      (tl : List CompiledProcedure),
      (runComponent fails cancelAt tl).head? = some RunEvent.acquire ∧
      RunEvent.acquire ∉ runFrom fails cancelAt tl) :=
  ⟨rfl, fun _ => rfl, fun _ => rfl,
    fun fails cancelAt tl => ⟨rfl, acquire_not_mem_runFrom fails cancelAt tl⟩⟩

/-- Claim C10: a driver's update method is an asynchronous generator, not a
plain async function: each invocation yields at least one datum for the
executor to report back to the hub - both for the guide's
PhilosophersStone (whose body is a single bare yield) and for the Vici
valve driver. -/
theorem claim10_update_yields_datum (s : PhilosophersStone) (v : ViciValve) :
    1 ≤ (PhilosophersStone.update s).length ∧
    1 ≤ (ViciValve.update v).length :=
  ⟨Nat.le_refl 1, Nat.le_refl 1⟩

end MechWolf
